import Mathlib

/-!
Verification development for the tommyds benchmark engine
(src/tommyds-1.0/benchmark.cc).

The C code is shallowly embedded: machine integers become natural numbers
with explicit reduction modulo 2^32 or 2^64 where the C arithmetic can wrap,
containers under test are modelled as finite sets of keys, the measurement
log and the result files are modelled as explicit state threaded through the
scan loop, and the abort calls of the C code become Boolean or Option
results.  All definitions are translated from the source file; theorems
below settle the specification claims against them.
-/

namespace TommyBench

/-- Size of an unsigned 32 bit value space, the type of keys (`unsigned`). -/
def U32 : ℕ := 4294967296

/-- Size of the 64 bit value space used by the seed state (`tommy_uint64_t`). -/
def U64 : ℕ := 18446744073709551616

/-- Maximum dataset size of the sweep (`#define MAX 10000000`, non-debug build). -/
def MAX : ℕ := 10000000

/-- Maximum number of retries (`#define RETRY_MAX 3`). -/
def RETRY_MAX : ℕ := 3

/-- Operation indices from benchmark.cc (`OPERATION_INSERT` .. `OPERATION_REMOVE`). -/
def OPERATION_INSERT : ℕ := 0

def OPERATION_HIT : ℕ := 1

def OPERATION_MISS : ℕ := 2

def OPERATION_SIZE : ℕ := 3

def OPERATION_CHANGE : ℕ := 4

def OPERATION_REMOVE : ℕ := 5

def OPERATION_MAX : ℕ := 6

/-- Order indices (`ORDER_FORWARD`, `ORDER_RANDOM`). -/
def ORDER_FORWARD : ℕ := 0

def ORDER_RANDOM : ℕ := 1

def ORDER_MAX : ℕ := 2

/-- Backend indices (`DATA_HASHTABLE` .. `DATA_JUDY`, `DATA_MAX`). -/
def DATA_HASHTABLE : ℕ := 0

def DATA_HASHDYN : ℕ := 1

def DATA_HASHLIN : ℕ := 2

def DATA_TRIE : ℕ := 3

def DATA_TRIE_INPLACE : ℕ := 4

def DATA_TREE : ℕ := 5

def DATA_KHASH : ℕ := 6

def DATA_CGOOGLE : ℕ := 7

def DATA_CCGOOGLE : ℕ := 8

def DATA_UTHASH : ℕ := 9

def DATA_NEDTRIE : ℕ := 10

def DATA_JUDY : ℕ := 11

def DATA_MAX : ℕ := 12

/-- Backend names, from the `DATA_NAME` table. -/
def DATA_NAME : List String :=
  ["tommy-hashtable", "tommy-hashdyn", "tommy-hashlin", "tommy-trie",
   "tommy-trie-inplace", "rbtree", "khash", "cgoogledensehash",
   "googledensehash", "uthash", "nedtrie", "judy"]

/-- Degenerate case time limit in nanoseconds (`#define TIME_MAX_NS 1500`). -/
def TIME_MAX_NS : ℕ := 1500

/-!
Key construction of the workload generator, from `order_init` in benchmark.cc:
in sparse mode `FORWARD[i] = 0xffffffff / max * i` and in dense mode
`FORWARD[i] = 0x80000000 + i * 2`, both computed in C `unsigned` arithmetic,
so reduced modulo 2^32.
-/

/-- Base (forward) key at index `i` for dataset size `max`, as computed by
`order_init`.  The multiplication and addition are reduced modulo 2^32
because the C expression has type `unsigned`. -/
def FORWARD (sparse : Bool) (max i : ℕ) : ℕ :=
  if sparse then 4294967295 / max * i % U32
  else (2147483648 + i * 2) % U32

/-- Base key sequence of length `max` produced by `order_init`. -/
def forwardList (sparse : Bool) (max : ℕ) : List ℕ :=
  (List.range max).map (FORWARD sparse max)

/-!
Teardown, from `test_free` in benchmark.cc.  For each backend the function
frees the external element storage; only for the five tommy containers
(`tommy_hashtable`, `tommy_hashdyn`, `tommy_hashlin`, `tommy_trie`,
`tommy_trie_inplace`) it first compares the live element count with zero and
aborts when it is non-zero.  The other branches (`rbtree`, `khash`, the two
google tables, `uthash`, `nedtrie`, `judy`) free their resources without any
count comparison.
-/

/-- Result of `test_free` for backend `d` whose container reports `count`
live elements: `true` means the process aborts.  Each match arm mirrors the
corresponding `COND(...)` block of `test_free`. -/
def test_free_aborts (d : ℕ) (count : ℕ) : Bool :=
  if d = DATA_HASHTABLE then count ≠ 0
  else if d = DATA_HASHDYN then count ≠ 0
  else if d = DATA_HASHLIN then count ≠ 0
  else if d = DATA_TRIE then count ≠ 0
  else if d = DATA_TRIE_INPLACE then count ≠ 0
  else if d = DATA_TREE then false
  else if d = DATA_KHASH then false
  else if d = DATA_CGOOGLE then false
  else if d = DATA_CCGOOGLE then false
  else if d = DATA_UTHASH then false
  else if d = DATA_NEDTRIE then false
  else if d = DATA_JUDY then false
  else false

/-!
Container model.  Every backend adapter in benchmark.cc keeps one object per
live key and is queried only through key lookup, so one dataset instance of
any backend is modelled as the finite set of its live keys.  The abort calls
on lookup failure become `Option`/`Bool` results.  Key arithmetic on lookup
keys (`SEARCH[i] + DELTA`) is C `unsigned` arithmetic, reduced modulo 2^32.
-/

/-- Key offset as computed in C: `k + delta` in `unsigned` arithmetic. -/
def addKey (k delta : ℕ) : ℕ := (k + delta) % U32

/-- Insert pass (`test_insert`): insert every key of `l`, in order, into the
container `s`. -/
def insertPhase (s : Finset ℕ) (l : List ℕ) : Finset ℕ :=
  l.foldl (fun s k => insert k s) s

/-- Hit pass (`test_hit`): look up every key of `l`; the result is `false`
exactly when some lookup fails, which in the C code calls `abort()`. -/
def hitPhase (s : Finset ℕ) (l : List ℕ) : Bool :=
  l.all (fun k => k ∈ s)

/-- Miss pass (`test_miss` with offset `delta`): look up `k + delta` for
every `k` of `l`; the result is `false` exactly when some lookup finds an
object, which in the C code calls `abort()`. -/
def missPhase (s : Finset ℕ) (l : List ℕ) (delta : ℕ) : Bool :=
  l.all (fun k => addKey k delta ∉ s)

/-- Change pass (`test_change`): for every pair `(r, ins)` remove the element
with key `r` (abort, that is `none`, when it is absent) and reinsert it under
key `ins + 1` (the C code uses `const unsigned DELTA = 1`). -/
def changePhase (s : Finset ℕ) : List (ℕ × ℕ) → Option (Finset ℕ)
  | [] => some s
  | (r, ins) :: rest =>
    if r ∈ s then changePhase (insert (addKey ins 1) (s.erase r)) rest else none

/-- Remove pass (`test_remove`): for every key `r` of `l` remove the element
with key `r + 1` (`const unsigned DELTA = 1`), aborting (`none`) when it is
absent. -/
def removePhase (s : Finset ℕ) : List ℕ → Option (Finset ℕ)
  | [] => some s
  | r :: rest =>
    if addKey r 1 ∈ s then removePhase (s.erase (addKey r 1)) rest else none

/-- Outcome of the fixed operation sequence of `test_operation` for one
dataset instance: insert, hit, miss, change, size, remove, in this order.
The size operation takes a memory snapshot and does not change the key set,
so it carries no state here. -/
structure DatasetRun where
  afterInsert : Finset ℕ
  hitOk : Bool
  missOk : Bool
  afterChange : Option (Finset ℕ)
  afterRemove : Option (Finset ℕ)

/-- Shallow embedding of `test_operation(INSERT, SEARCH)`: the six passes in
their fixed source order, starting from an empty container.  `test_miss` is
called with `DELTA = 1` and `test_change` removes by `SEARCH[i]` and inserts
`INSERT[i] + 1`, exactly as in the C call `test_change(SEARCH, INSERT)`. -/
def test_operation (INSERT SEARCH : List ℕ) : DatasetRun :=
  let s1 := insertPhase ∅ INSERT
  let hOk := hitPhase s1 SEARCH
  let mOk := missPhase s1 SEARCH 1
  let s2 := changePhase s1 (SEARCH.zip INSERT)
  let s3 := s2.bind (fun s => removePhase s SEARCH)
  ⟨s1, hOk, mOk, s2, s3⟩

/-- C1 (counterexample): the teardown emptiness check is not performed for
every backend.  Backend index 5 (`rbtree`) with one live element is torn
down by `test_free` without any abort, refuting the claim that a non-zero
live count causes a fatal abort for every backend. -/
theorem test_free_not_all_backends_checked :
    ¬ (∀ d, d < DATA_MAX → ∀ n, n ≠ 0 → test_free_aborts d n = true) := by
  intro h
  have h5 := h DATA_TREE (by decide) 1 (by decide)
  exact absurd h5 (by decide)

/-- C1 (amended): the teardown step of `test_free` verifies a zero live
count, with a fatal abort on violation, exactly for the five tommy container
backends (indices 0 to 4: hashtable, hashdyn, hashlin, trie, trie-inplace);
all other backends are torn down without an emptiness check. -/
theorem test_free_emptiness_check :
    ∀ d n, test_free_aborts d n = true ↔ (d < 5 ∧ n ≠ 0) := by
  intro d n
  rcases d with _|_|_|_|_|_|_|_|_|_|_|_|d <;>
    simp [test_free_aborts, DATA_HASHTABLE, DATA_HASHDYN, DATA_HASHLIN,
      DATA_TRIE, DATA_TRIE_INPLACE, DATA_TREE, DATA_KHASH, DATA_CGOOGLE,
      DATA_CCGOOGLE, DATA_UTHASH, DATA_NEDTRIE, DATA_JUDY]

/-- C4: for every dataset size up to the sweep ceiling, the sparse mode base
keys are exactly `⌊(2^32 - 1) / N⌋ * i` and the dense mode base keys are
exactly `0x80000000 + 2 * i` (no `unsigned` wraparound occurs), and for
`N = 1000` in sparse mode the forward sequence is `4294967 * i`, that is
`[0, 4294967, 8589934, ...]`. -/
theorem forward_key_formulas :
    (∀ N, 1 ≤ N → N ≤ MAX → ∀ i, i < N →
      FORWARD true N i = 4294967295 / N * i ∧
      FORWARD false N i = 2147483648 + i * 2) ∧
    (∀ i, i < 1000 → FORWARD true 1000 i = 4294967 * i) := by
  constructor
  · intro N h1 hN i hi
    have hs1 : 4294967295 / N * i ≤ 4294967295 / N * N :=
      Nat.mul_le_mul le_rfl hi.le
    have hs2 : 4294967295 / N * N ≤ 4294967295 := Nat.div_mul_le_self _ _
    constructor
    · show 4294967295 / N * i % U32 = 4294967295 / N * i
      exact Nat.mod_eq_of_lt (by unfold U32; omega)
    · show (2147483648 + i * 2) % U32 = 2147483648 + i * 2
      have : i < MAX := lt_of_lt_of_le hi hN
      exact Nat.mod_eq_of_lt (by unfold U32 MAX at *; omega)
  · intro i hi
    show 4294967295 / 1000 * i % U32 = 4294967 * i
    have : 4294967 * i < U32 := by unfold U32; omega
    rw [show (4294967295 : ℕ) / 1000 = 4294967 by norm_num, Nat.mod_eq_of_lt this]

/-- Witness for C4 at `N = 1000`, `i = 2`: the third sparse key is
`8589934` and the third dense key is `2147483652`. -/
theorem forward_key_formulas_witness :
    FORWARD true 1000 2 = 4294967295 / 1000 * 2 ∧
    FORWARD false 1000 2 = 2147483648 + 2 * 2 ∧
    FORWARD true 1000 2 = 4294967 * 2 := by
  obtain ⟨h, hex⟩ := forward_key_formulas
  refine ⟨(h 1000 (by norm_num) (by norm_num [MAX]) 2 (by norm_num)).1, ?_,
    hex 2 (by norm_num)⟩
  exact (h 1000 (by norm_num) (by norm_num [MAX]) 2 (by norm_num)).2

/-!
Helper lemmas about the key construction and the container passes.
-/

/-- Sparse mode keys never wrap: the C expression `0xffffffff / max * i`
stays below 2^32 for `i < max`. -/
lemma FORWARD_sparse_eq {N i : ℕ} (hi : i < N) :
    FORWARD true N i = 4294967295 / N * i := by
  have hs1 : 4294967295 / N * i ≤ 4294967295 / N * N := Nat.mul_le_mul le_rfl hi.le
  have hs2 : 4294967295 / N * N ≤ 4294967295 := Nat.div_mul_le_self _ _
  show 4294967295 / N * i % U32 = 4294967295 / N * i
  exact Nat.mod_eq_of_lt (by unfold U32; omega)

/-- Dense mode keys never wrap for the sizes the harness can reach. -/
lemma FORWARD_dense_eq {i : ℕ} (hi : i < 1073741824) :
    FORWARD false N i = 2147483648 + i * 2 := by
  show (2147483648 + i * 2) % U32 = 2147483648 + i * 2
  exact Nat.mod_eq_of_lt (by unfold U32; omega)

/-- Sparse mode key step is at least 429 for sizes up to the sweep ceiling. -/
lemma sparse_step_ge {N : ℕ} (h1 : 1 ≤ N) (hN : N ≤ MAX) :
    429 ≤ 4294967295 / N := by
  have h3 : 4294967295 / MAX ≤ 4294967295 / N := Nat.div_le_div_left hN h1
  have h2 : 4294967295 / MAX = 429 := by norm_num [MAX]
  omega

/-- Base keys plus one never collide with base keys, in either mode, for any
dataset size up to the sweep ceiling. -/
lemma forward_no_collision {sparse : Bool} {N : ℕ} (h1 : 1 ≤ N) (hN : N ≤ MAX)
    {i j : ℕ} (hi : i < N) (hj : j < N) :
    FORWARD sparse N i + 1 ≠ FORWARD sparse N j := by
  cases sparse with
  | false =>
    rw [FORWARD_dense_eq (by unfold MAX at hN; omega),
      FORWARD_dense_eq (by unfold MAX at hN; omega)]
    omega
  | true =>
    rw [FORWARD_sparse_eq hi, FORWARD_sparse_eq hj]
    have hstep : 429 ≤ 4294967295 / N := sparse_step_ge h1 hN
    rcases le_or_lt j i with hle | hlt
    · have : 4294967295 / N * j ≤ 4294967295 / N * i := Nat.mul_le_mul le_rfl hle
      omega
    · have hj' : j = i + (j - i) := by omega
      rw [hj', Nat.mul_add]
      have : 4294967295 / N * 1 ≤ 4294967295 / N * (j - i) :=
        Nat.mul_le_mul le_rfl (by omega)
      omega

/-- Every base key plus one stays below 2^32, in either mode, for any size
up to the sweep ceiling. -/
lemma forward_add_one_lt {sparse : Bool} {N : ℕ} (h1 : 1 ≤ N) (hN : N ≤ MAX)
    {i : ℕ} (hi : i < N) :
    FORWARD sparse N i + 1 < U32 := by
  cases sparse with
  | false =>
    rw [FORWARD_dense_eq (by unfold MAX at hN; omega)]
    unfold MAX at hN
    unfold U32
    omega
  | true =>
    rw [FORWARD_sparse_eq hi]
    have hstep : 429 ≤ 4294967295 / N := sparse_step_ge h1 hN
    have hs1 : 4294967295 / N * i ≤ 4294967295 / N * (N - 1) :=
      Nat.mul_le_mul le_rfl (by omega)
    have hs2 : 4294967295 / N * N ≤ 4294967295 := Nat.div_mul_le_self _ _
    have hs3 : 4294967295 / N * N = 4294967295 / N * (N - 1) + 4294967295 / N := by
      rw [← Nat.mul_succ]
      congr 1
      omega
    unfold U32
    omega

/-- Inserting a list of keys into a container adds exactly its members. -/
lemma insertPhase_eq (s : Finset ℕ) (l : List ℕ) :
    insertPhase s l = s ∪ l.toFinset := by
  induction l generalizing s with
  | nil => simp [insertPhase]
  | cons k rest ih =>
    simp only [insertPhase, List.foldl_cons] at ih ⊢
    rw [ih]
    ext x
    simp only [Finset.mem_union, Finset.mem_insert, List.mem_toFinset,
      List.mem_cons]
    tauto

/-- The hit pass succeeds when every searched key is live. -/
lemma hitPhase_eq_true {s : Finset ℕ} {l : List ℕ} (h : ∀ k ∈ l, k ∈ s) :
    hitPhase s l = true := by
  simp only [hitPhase, List.all_eq_true, decide_eq_true_eq]
  exact h

/-- The miss pass succeeds when no offset key is live. -/
lemma missPhase_eq_true {s : Finset ℕ} {l : List ℕ} {delta : ℕ}
    (h : ∀ k ∈ l, addKey k delta ∉ s) :
    missPhase s l delta = true := by
  simp only [missPhase, List.all_eq_true, decide_eq_true_eq]
  exact h

/-- Invariant of the change pass: with the still-to-be-removed keys `rs` and
the already reinserted keys `done` live, processing `rs.zip is` succeeds and
leaves exactly the keys of `done ++ is`, each offset by one. -/
lemma changePhase_go : ∀ (rs is done : List ℕ),
    rs.Nodup → rs.length = is.length →
    (∀ r ∈ rs, ∀ d ∈ done ++ is, r ≠ addKey d 1) →
    changePhase (rs.toFinset ∪ (done.map (fun k => addKey k 1)).toFinset)
        (rs.zip is) =
      some ((done ++ is).map (fun k => addKey k 1)).toFinset := by
  intro rs
  induction rs with
  | nil =>
    intro is done _ hlen _
    have : is = [] := List.eq_nil_of_length_eq_zero (by simpa using hlen.symm)
    subst this
    simp [changePhase]
  | cons r rs' ih =>
    intro is done hnd hlen hfresh
    cases is with
    | nil => simp at hlen
    | cons i is' =>
      have hr_rs : r ∉ rs' := (List.nodup_cons.mp hnd).1
      have hrdone : ∀ d ∈ done, r ≠ addKey d 1 := by
        intro d hd
        exact hfresh r (List.mem_cons_self r rs') d (by simp [hd])
      simp only [List.zip_cons_cons, changePhase]
      rw [if_pos (by simp)]
      have hset : insert (addKey i 1)
          (((r :: rs').toFinset ∪
            (done.map (fun k => addKey k 1)).toFinset).erase r) =
          rs'.toFinset ∪ ((done ++ [i]).map (fun k => addKey k 1)).toFinset := by
        ext x
        simp only [Finset.mem_insert, Finset.mem_erase, Finset.mem_union,
          List.mem_toFinset, List.mem_cons, List.mem_map, List.mem_append,
          List.mem_singleton, List.not_mem_nil, or_false]
        constructor
        · rintro (rfl | ⟨hxr, (rfl | hx) | ⟨d, hd, rfl⟩⟩)
          · exact Or.inr ⟨i, Or.inr rfl, rfl⟩
          · exact absurd rfl hxr
          · exact Or.inl hx
          · exact Or.inr ⟨d, Or.inl hd, rfl⟩
        · rintro (hx | ⟨d, hd | rfl, rfl⟩)
          · exact Or.inr ⟨fun h => hr_rs (h ▸ hx), Or.inl (Or.inr hx)⟩
          · exact Or.inr ⟨fun h => hrdone d hd h.symm, Or.inr ⟨d, hd, rfl⟩⟩
          · exact Or.inl rfl
      rw [hset]
      have hlist : (done ++ [i]) ++ is' = done ++ i :: is' := by
        rw [List.append_assoc, List.singleton_append]
      have := ih is' (done ++ [i]) (List.nodup_cons.mp hnd).2
        (by simpa using hlen) (by
          intro r' hr' d hd
          refine hfresh r' (List.mem_cons_of_mem _ hr') d ?_
          rw [← hlist]
          exact hd)
      rw [hlist] at this
      exact this

/-- The remove pass, applied to a container holding exactly the keys of `rs`
offset by one, removes every element and succeeds. -/
lemma removePhase_go : ∀ rs : List ℕ, rs.Nodup → (∀ k ∈ rs, k + 1 < U32) →
    removePhase ((rs.map (fun k => addKey k 1)).toFinset) rs = some ∅ := by
  intro rs
  induction rs with
  | nil => intro _ _; simp [removePhase]
  | cons r rest ih =>
    intro hnd hb
    have hbr : r + 1 < U32 := hb r (List.mem_cons_self r rest)
    simp only [List.map_cons, removePhase]
    rw [if_pos (by simp)]
    have hset : ((addKey r 1 :: rest.map (fun k => addKey k 1)).toFinset).erase
        (addKey r 1) = (rest.map (fun k => addKey k 1)).toFinset := by
      ext x
      simp only [Finset.mem_erase, List.mem_toFinset, List.mem_cons,
        List.mem_map]
      constructor
      · rintro ⟨hne, rfl | hx⟩
        · exact absurd rfl hne
        · exact hx
      · rintro ⟨k, hk, rfl⟩
        refine ⟨?_, Or.inr ⟨k, hk, rfl⟩⟩
        have hbk : k + 1 < U32 := hb k (List.mem_cons_of_mem _ hk)
        have : addKey k 1 = k + 1 := Nat.mod_eq_of_lt hbk
        have hr : addKey r 1 = r + 1 := Nat.mod_eq_of_lt hbr
        rw [this, hr]
        intro hEq
        have : k = r := by omega
        exact (List.nodup_cons.mp hnd).1 (this ▸ hk)
    rw [hset]
    exact ih (List.nodup_cons.mp hnd).2 (fun k hk => hb k (List.mem_cons_of_mem _ hk))

/-- Offset keys reduce to plain addition below the 32 bit bound. -/
lemma addKey_one_eq {k : ℕ} (h : k + 1 < U32) : addKey k 1 = k + 1 :=
  Nat.mod_eq_of_lt h

/-- C2: for one dataset instance the six passes run in the fixed source
order insert, hit, miss, change, size, remove (the order is the structure of
`test_operation`); the hit and miss passes succeed, after the change pass
the live key set is exactly the baseline key set shifted by one, and the
remove pass deletes every element using keys offset by one, ending empty.
The hypotheses are the workload generator guarantees: both orders permute a
duplicate-free baseline whose keys stay below 2^32 - 1 and whose successors
never collide with baseline keys. -/
theorem operation_sequence (B INSERT SEARCH : List ℕ)
    (hI : INSERT.Perm B) (hS : SEARCH.Perm B) (hnd : B.Nodup)
    (hbound : ∀ k ∈ B, k + 1 < U32) (hcol : ∀ k ∈ B, k + 1 ∉ B) :
    test_operation INSERT SEARCH =
      ⟨B.toFinset, true, true, some (B.toFinset.image (fun k => k + 1)),
        some ∅⟩ := by
  have hIfin : INSERT.toFinset = B.toFinset := List.toFinset_eq_of_perm _ _ hI
  have hSfin : SEARCH.toFinset = B.toFinset := List.toFinset_eq_of_perm _ _ hS
  have h1 : insertPhase ∅ INSERT = B.toFinset := by
    rw [insertPhase_eq, hIfin, Finset.empty_union]
  have h2 : hitPhase (insertPhase ∅ INSERT) SEARCH = true := by
    refine hitPhase_eq_true ?_
    intro k hk
    rw [h1]
    exact List.mem_toFinset.mpr (hS.mem_iff.mp hk)
  have h3 : missPhase (insertPhase ∅ INSERT) SEARCH 1 = true := by
    refine missPhase_eq_true ?_
    intro k hk
    have hkB : k ∈ B := hS.mem_iff.mp hk
    rw [h1, addKey_one_eq (hbound k hkB)]
    exact fun hmem => hcol k hkB (List.mem_toFinset.mp hmem)
  have himg : ∀ L : List ℕ, L.Perm B →
      (L.map (fun k => addKey k 1)).toFinset =
        B.toFinset.image (fun k => k + 1) := by
    intro L hL
    ext x
    simp only [List.mem_toFinset, List.mem_map, Finset.mem_image]
    constructor
    · rintro ⟨k, hk, rfl⟩
      have hkB : k ∈ B := hL.mem_iff.mp hk
      exact ⟨k, hkB, (addKey_one_eq (hbound k hkB)).symm⟩
    · rintro ⟨k, hkB, rfl⟩
      exact ⟨k, hL.mem_iff.mpr hkB, addKey_one_eq (hbound k hkB)⟩
  have h4 : changePhase (insertPhase ∅ INSERT) (SEARCH.zip INSERT) =
      some (B.toFinset.image (fun k => k + 1)) := by
    have hgo := changePhase_go SEARCH INSERT [] (hS.nodup_iff.mpr hnd)
      (hS.length_eq.trans hI.length_eq.symm)
      (by
        intro r hr d hd
        simp only [List.nil_append] at hd
        have hdB : d ∈ B := hI.mem_iff.mp hd
        rw [addKey_one_eq (hbound d hdB)]
        exact fun hEq => hcol d hdB (hEq ▸ hS.mem_iff.mp hr))
    simp only [List.map_nil, List.toFinset_nil, Finset.union_empty,
      List.nil_append] at hgo
    rw [hSfin] at hgo
    rw [h1, hgo, himg INSERT hI]
  have h5 : (changePhase (insertPhase ∅ INSERT) (SEARCH.zip INSERT)).bind
      (fun s => removePhase s SEARCH) = some ∅ := by
    rw [h4, Option.some_bind, ← himg SEARCH hS]
    exact removePhase_go SEARCH (hS.nodup_iff.mpr hnd)
      (fun k hk => hbound k (hS.mem_iff.mp hk))
  simp only [test_operation, DatasetRun.mk.injEq]
  exact ⟨h1, h2, h3, h4, h5⟩

/-- Witness for C2 on the concrete dense mode baseline of size three: both
orders equal the baseline, all hypotheses hold by computation, and the run
produces exactly the predicted states. -/
theorem operation_sequence_witness :
    test_operation [2147483648, 2147483650, 2147483652]
        [2147483648, 2147483650, 2147483652] =
      ⟨([2147483648, 2147483650, 2147483652] : List ℕ).toFinset, true, true,
        some ((([2147483648, 2147483650, 2147483652] : List ℕ).toFinset).image
          (fun k => k + 1)), some ∅⟩ :=
  operation_sequence [2147483648, 2147483650, 2147483652] _ _
    (List.Perm.refl _) (List.Perm.refl _) (by decide) (by decide) (by decide)

/-- C3: in both key construction modes, for every dataset size up to the
sweep ceiling of 10000000, no base key plus one equals any base key; hence
every miss lookup key `SEARCH[i] + 1` is absent from the container built by
the insert pass, so the abort branches of `test_miss` are unreachable. -/
theorem miss_lookups_find_nothing (sparse : Bool) (N : ℕ)
    (h1 : 1 ≤ N) (hN : N ≤ MAX) :
    (∀ i j, i < N → j < N →
      addKey (FORWARD sparse N i) 1 ≠ FORWARD sparse N j) ∧
    (∀ INSERT SEARCH : List ℕ, INSERT.Perm (forwardList sparse N) →
      SEARCH.Perm (forwardList sparse N) →
      missPhase (insertPhase ∅ INSERT) SEARCH 1 = true) := by
  have hkey : ∀ i j, i < N → j < N →
      addKey (FORWARD sparse N i) 1 ≠ FORWARD sparse N j := by
    intro i j hi hj
    rw [addKey_one_eq (forward_add_one_lt h1 hN hi)]
    exact forward_no_collision h1 hN hi hj
  refine ⟨hkey, ?_⟩
  intro INSERT SEARCH hI hS
  have hIfin : INSERT.toFinset = (forwardList sparse N).toFinset :=
    List.toFinset_eq_of_perm _ _ hI
  refine missPhase_eq_true ?_
  intro k hk
  rw [insertPhase_eq, Finset.empty_union, hIfin]
  intro hmem
  have hkfl : k ∈ forwardList sparse N := hS.mem_iff.mp hk
  have hmfl : addKey k 1 ∈ forwardList sparse N := List.mem_toFinset.mp hmem
  obtain ⟨i, hi, rfl⟩ := by
    simpa only [forwardList, List.mem_map, List.mem_range] using hkfl
  obtain ⟨j, hj, hje⟩ := by
    simpa only [forwardList, List.mem_map, List.mem_range] using hmfl
  exact hkey i j hi hj hje.symm

/-- Witness for C3 in sparse mode at size five: the offset key of index two
differs from the base key of index three, and the miss pass over the forward
order itself finds nothing. -/
theorem miss_lookups_find_nothing_witness :
    addKey (FORWARD true 5 2) 1 ≠ FORWARD true 5 3 ∧
    missPhase (insertPhase ∅ (forwardList true 5)) (forwardList true 5) 1 =
      true := by
  have h := miss_lookups_find_nothing true 5 (by norm_num) (by norm_num [MAX])
  exact ⟨h.1 2 3 (by norm_num) (by norm_num),
    h.2 (forwardList true 5) (forwardList true 5) (List.Perm.refl _)
      (List.Perm.refl _)⟩

/-!
Scan controller model, from `test(size, data, log, sparse)` in benchmark.cc.

The raw per-cell measurements (`elapsed / the_max`, or `v / the_max` for the
size operation) depend on the machine clock, so they enter the model as an
oracle `meas m r d o op` giving the value logged for dataset size `m`, retry
`r`, backend `d`, order `o`, operation `op` when that cell is measured.  The
escalating size sequence `b *= pow(10, 0.1)` is floating point, so the model
takes the list of visited sizes as a parameter and folds the per-size body
over it; everything inside the loop body is modelled faithfully: the retry
count, the `memset(LOG, 0, ...)` zero fill, the degenerate-case skip, the
minimum-over-retries reduction, the `LAST` update and the file rows.
-/

/-- Inputs of one invocation of `test`, together with the measurement
oracle. -/
structure RunParams where
  size : ℕ
  data : ℕ
  log : Bool
  meas : ℕ → ℕ → ℕ → ℕ → ℕ → ℕ

/-- Logging flag: `the_log = (size == 0 && data == DATA_MAX) || log`. -/
def theLog (p : RunParams) : Bool :=
  (decide (p.size = 0) && decide (p.data = DATA_MAX)) || p.log

/-- Retry count for one dataset size: `500000 / the_max` clamped to
`[1, RETRY_MAX]`, forced to `1` in single-size mode (`size != 0`). -/
def retriesFor (p : RunParams) (m : ℕ) : ℕ :=
  if p.size ≠ 0 then 1 else min RETRY_MAX (max (500000 / m) 1)

/-- Whether the pair (backend `d`, order `o`) is measured at the current
size: the backend must be selected (`data == DATA_MAX || data == the_data`)
and, in an unconstrained run, the pair must not have degenerated
(`data == DATA_MAX && LAST[the_data][the_order] > TIME_MAX_NS` skips). -/
def measuredPair (p : RunParams) (last : ℕ → ℕ → ℕ) (d o : ℕ) : Bool :=
  (decide (p.data = DATA_MAX) || decide (p.data = d)) &&
    !(decide (p.data = DATA_MAX) && decide (TIME_MAX_NS < last d o))

/-- Content of `LOG[r][d][o][op]` after the retry loops of one size: the
oracle value when the pair was measured, otherwise the zero left by
`memset(LOG, 0, sizeof(LOG))`. -/
def logEntry (p : RunParams) (last : ℕ → ℕ → ℕ) (m r d o op : ℕ) : ℕ :=
  if measuredPair p last d o then p.meas m r d o op else 0

/-- The minimum loop of the write-out phase: `v = LOG[0][...]` then
`for(i=1;i<retry;++i) if (LOG[i] < v) v = LOG[i]`.  `minLoop g r` is the
value of `v` after scanning indices `0..r`. -/
def minLoop (g : ℕ → ℕ) : ℕ → ℕ
  | 0 => g 0
  | r + 1 => if g (r + 1) < minLoop g r then g (r + 1) else minLoop g r

/-- Value emitted to the result row for one cell: the minimum of the logged
values over retries `0 .. retry-1`. -/
def emittedVal (p : RunParams) (last : ℕ → ℕ → ℕ) (m d o op : ℕ) : ℕ :=
  minLoop (fun r => logEntry p last m r d o op) (retriesFor p m - 1)

/-- Update of `LAST[d][o]` while writing one size: for every operation in
file order, `if (the_operation != OPERATION_SIZE) if (v != 0 && LAST < v)
LAST = v`. -/
def newLastVal (last0 : ℕ) (v : ℕ → ℕ) : ℕ :=
  (List.range OPERATION_MAX).foldl
    (fun acc op => if op ≠ OPERATION_SIZE ∧ v op ≠ 0 ∧ acc < v op then v op
      else acc) last0

/-- One line of a `dat_<order>_<operation>.lst` result file: either the
header line (`"0"` followed by the backend names) or a data line (the
dataset size followed by one value per backend). -/
inductive FileRow where
  | header : List String → FileRow
  | row : ℕ → List ℕ → FileRow
deriving DecidableEq

/-- Dataset size of a data line. -/
def rowSize : FileRow → Option ℕ
  | FileRow.header _ => none
  | FileRow.row m _ => some m

/-- Number of values of a data line. -/
def rowWidth : FileRow → Option ℕ
  | FileRow.header _ => none
  | FileRow.row _ vs => some vs.length

/-- State threaded through the size loop of `test`: the `LAST` array, the
content of the result file of every (order, operation) pair, and a log of
the (size, backend, order) triples actually measured (one entry per retry),
recording which measurements happened. -/
structure SweepState where
  last : ℕ → ℕ → ℕ
  files : ℕ → ℕ → List FileRow
  measLog : List (ℕ × ℕ × ℕ)

/-- Triples measured during the retry loops of one size. -/
def measuredTriples (p : RunParams) (last : ℕ → ℕ → ℕ) (m retry : ℕ) :
    List (ℕ × ℕ × ℕ) :=
  (List.range retry).flatMap (fun _ =>
    (List.range DATA_MAX).flatMap (fun d =>
      (List.range ORDER_MAX).filterMap (fun o =>
        if measuredPair p last d o then some (m, d, o) else none)))

/-- Values of one emitted data line, one per backend index. -/
def rowVals (p : RunParams) (last : ℕ → ℕ → ℕ) (m o op : ℕ) : List ℕ :=
  (List.range DATA_MAX).map (fun d => emittedVal p last m d o op)

/-- Body of the size loop of `test` for one dataset size `m`: zero the log,
run the retry loops (recorded in `measLog`), then, when logging, write one
data line per (order, operation) file and fold the new minima into
`LAST`. -/
def sizeStep (p : RunParams) (st : SweepState) (m : ℕ) : SweepState :=
  { last := fun d o =>
      if theLog p then
        newLastVal (st.last d o) (fun op => emittedVal p st.last m d o op)
      else st.last d o,
    files := fun o op =>
      if theLog p then st.files o op ++ [FileRow.row m (rowVals p st.last m o op)]
      else st.files o op,
    measLog := st.measLog ++ measuredTriples p st.last m (retriesFor p m) }

/-- Initial state of one invocation of `test`: `LAST` is the zero-filled
global array, and when logging each result file has been created holding the
header line. -/
def initState (p : RunParams) : SweepState :=
  { last := fun _ _ => 0,
    files := fun _ _ =>
      if theLog p then [FileRow.header ("0" :: DATA_NAME)] else [],
    measLog := [] }

/-- The whole size loop of `test`, over the given list of dataset sizes. -/
def runSweep (p : RunParams) (sizes : List ℕ) : SweepState :=
  sizes.foldl (sizeStep p) (initState p)

/-!
Helper lemmas about the sweep model.
-/

/-- The retry count is always at least one. -/
lemma retriesFor_pos (p : RunParams) (m : ℕ) : 1 ≤ retriesFor p m := by
  unfold retriesFor RETRY_MAX
  split
  · exact le_rfl
  · omega

/-- Unfolding equation of the minimum loop. -/
lemma minLoop_succ (g : ℕ → ℕ) (r : ℕ) :
    minLoop g (r + 1) =
      if g (r + 1) < minLoop g r then g (r + 1) else minLoop g r := rfl

/-- The minimum loop result is bounded by every scanned entry. -/
lemma minLoop_le (g : ℕ → ℕ) : ∀ r i, i ≤ r → minLoop g r ≤ g i := by
  intro r
  induction r with
  | zero => intro i hi; interval_cases i; exact le_rfl
  | succ r ih =>
    intro i hi
    rcases Nat.lt_or_ge i (r + 1) with h | h
    · have h2 := ih i (by omega)
      rw [minLoop_succ]
      split <;> omega
    · have : i = r + 1 := by omega
      subst this
      rw [minLoop_succ]
      split <;> omega

/-- The minimum loop result is one of the scanned entries. -/
lemma minLoop_exists (g : ℕ → ℕ) : ∀ r, ∃ i, i ≤ r ∧ minLoop g r = g i := by
  intro r
  induction r with
  | zero => exact ⟨0, le_rfl, rfl⟩
  | succ r ih =>
    obtain ⟨i, hi, he⟩ := ih
    rw [minLoop_succ]
    split
    · exact ⟨r + 1, le_rfl, rfl⟩
    · exact ⟨i, by omega, he⟩

/-- Scanning only zero entries yields zero. -/
lemma minLoop_zero {g : ℕ → ℕ} (h : ∀ i, g i = 0) (r : ℕ) :
    minLoop g r = 0 := by
  obtain ⟨i, _, he⟩ := minLoop_exists g r
  rw [he, h i]

/-- The `LAST` update never decreases the stored value. -/
lemma newLastFold_ge (v : ℕ → ℕ) :
    ∀ (l : List ℕ) (a : ℕ),
      a ≤ l.foldl (fun acc op =>
        if op ≠ OPERATION_SIZE ∧ v op ≠ 0 ∧ acc < v op then v op else acc) a := by
  intro l
  induction l with
  | nil => intro a; exact le_rfl
  | cons op rest ih =>
    intro a
    refine le_trans ?_ (ih _)
    dsimp only
    split <;> omega

/-- The `LAST` update ignores zero values entirely. -/
lemma newLastFold_zeros {v : ℕ → ℕ} (hv : ∀ op, v op = 0) :
    ∀ (l : List ℕ) (a : ℕ),
      l.foldl (fun acc op =>
        if op ≠ OPERATION_SIZE ∧ v op ≠ 0 ∧ acc < v op then v op else acc) a = a := by
  intro l
  induction l with
  | nil => intro a; rfl
  | cons op rest ih =>
    intro a
    have : (if op ≠ OPERATION_SIZE ∧ v op ≠ 0 ∧ a < v op then v op else a) = a := by
      rw [if_neg]
      simp [hv op]
    simpa [this] using ih a

/-- A value `LAST[d][o]` never decreases across one size step. -/
lemma sizeStep_last_mono (p : RunParams) (st : SweepState) (m d o : ℕ) :
    st.last d o ≤ (sizeStep p st m).last d o := by
  unfold sizeStep
  dsimp only
  split
  · exact newLastFold_ge _ _ _
  · exact le_rfl

/-- A value `LAST[d][o]` never decreases across any run suffix. -/
lemma foldl_last_mono (p : RunParams) (d o : ℕ) :
    ∀ (sizes : List ℕ) (st : SweepState),
      st.last d o ≤ (sizes.foldl (sizeStep p) st).last d o := by
  intro sizes
  induction sizes with
  | nil => intro st; exact le_rfl
  | cons m rest ih =>
    intro st
    exact le_trans (sizeStep_last_mono p st m d o) (ih _)

/-- Splitting a run after a prefix of sizes. -/
lemma runSweep_append (p : RunParams) (s1 s2 : List ℕ) :
    runSweep p (s1 ++ s2) = s2.foldl (sizeStep p) (runSweep p s1) := by
  unfold runSweep
  rw [List.foldl_append]

/-- No triple of a skipped pair enters the measurement log. -/
lemma measuredTriples_not_mem {p : RunParams} {last : ℕ → ℕ → ℕ}
    {m retry d o : ℕ} (hskip : measuredPair p last d o = false) :
    ∀ x ∈ measuredTriples p last m retry, ¬(x.2.1 = d ∧ x.2.2 = o) := by
  intro x hx ⟨h1, h2⟩
  simp only [measuredTriples, List.mem_flatMap, List.mem_filterMap,
    List.mem_range] at hx
  obtain ⟨r, _, d', _, o', _, hfo⟩ := hx
  split_ifs at hfo with hm
  · obtain rfl := Option.some_injective _ hfo
    simp only at h1 h2
    rw [h1, h2] at hm
    rw [hskip] at hm
    exact Bool.noConfusion hm

/-- While a pair is marked degenerate, every further size step leaves its
marker unchanged and measures nothing for it. -/
lemma skip_invariant (p : RunParams) (hdata : p.data = DATA_MAX) (d o : ℕ) :
    ∀ (sizes : List ℕ) (st : SweepState), TIME_MAX_NS < st.last d o →
      ((sizes.foldl (sizeStep p) st).last d o = st.last d o) ∧
      ∃ suffix, (sizes.foldl (sizeStep p) st).measLog = st.measLog ++ suffix ∧
        ∀ x ∈ suffix, ¬(x.2.1 = d ∧ x.2.2 = o) := by
  intro sizes
  induction sizes with
  | nil => intro st _; exact ⟨rfl, [], by simp, by simp⟩
  | cons m rest ih =>
    intro st h
    have hskip : measuredPair p st.last d o = false := by
      simp [measuredPair, hdata, h]
    have hzero : ∀ op, emittedVal p st.last m d o op = 0 := by
      intro op
      unfold emittedVal
      exact minLoop_zero (fun r => by simp [logEntry, hskip]) _
    have hlast : (sizeStep p st m).last d o = st.last d o := by
      unfold sizeStep
      dsimp only
      split
      · exact newLastFold_zeros hzero _ _
      · rfl
    have hlog : (sizeStep p st m).measLog =
        st.measLog ++ measuredTriples p st.last m (retriesFor p m) := rfl
    obtain ⟨h1, suffix, h2, h3⟩ := ih (sizeStep p st m) (by rw [hlast]; exact h)
    refine ⟨by rw [List.foldl_cons, h1, hlast], ?_⟩
    refine ⟨measuredTriples p st.last m (retriesFor p m) ++ suffix, ?_, ?_⟩
    · rw [List.foldl_cons, h2, hlog, List.append_assoc]
    · intro x hx
      rcases List.mem_append.mp hx with hx | hx
      · exact measuredTriples_not_mem hskip x hx
      · exact h3 x hx

/-- Per-step invariant of the result files: when logging, each size appends
exactly one data line of `DATA_MAX` values to every file. -/
lemma files_invariant (p : RunParams) (hlog : theLog p = true) (o op : ℕ) :
    ∀ (sizes : List ℕ) (st : SweepState), ∃ rows,
      (sizes.foldl (sizeStep p) st).files o op = st.files o op ++ rows ∧
      rows.map rowSize = sizes.map some ∧
      ∀ r ∈ rows, rowWidth r = some DATA_MAX := by
  intro sizes
  induction sizes with
  | nil => intro st; exact ⟨[], by simp, by simp, by simp⟩
  | cons m rest ih =>
    intro st
    obtain ⟨rows, h1, h2, h3⟩ := ih (sizeStep p st m)
    refine ⟨FileRow.row m (rowVals p st.last m o op) :: rows, ?_, ?_, ?_⟩
    · rw [List.foldl_cons, h1]
      have hf : (sizeStep p st m).files o op =
          st.files o op ++ [FileRow.row m (rowVals p st.last m o op)] := by
        unfold sizeStep
        dsimp only
        rw [if_pos hlog]
      rw [hf, List.append_assoc, List.singleton_append]
    · simp only [List.map_cons, h2, rowSize]
    · intro r hr
      rcases List.mem_cons.mp hr with rfl | hr
      · simp [rowWidth, rowVals]
      · exact h3 r hr

/-- C7: the value written to the result row for a cell is the minimum of
that cell's logged values over all retries performed at that size, hence at
most every individual retry's value; and the row written for a size holds
exactly these per-cell minima. -/
theorem min_over_retries (p : RunParams) (st : SweepState) (m d o op : ℕ)
    (hlog : theLog p = true) :
    ((sizeStep p st m).files o op =
      st.files o op ++ [FileRow.row m (rowVals p st.last m o op)]) ∧
    (∃ r, r < retriesFor p m ∧
      emittedVal p st.last m d o op = logEntry p st.last m r d o op) ∧
    (∀ r, r < retriesFor p m →
      emittedVal p st.last m d o op ≤ logEntry p st.last m r d o op) := by
  have hpos := retriesFor_pos p m
  refine ⟨?_, ?_, ?_⟩
  · unfold sizeStep
    dsimp only
    rw [if_pos hlog]
  · obtain ⟨i, hi, he⟩ :=
      minLoop_exists (fun r => logEntry p st.last m r d o op)
        (retriesFor p m - 1)
    exact ⟨i, by omega, he⟩
  · intro r hr
    exact minLoop_le _ _ r (by omega)

/-- Demonstration parameters: an unconstrained logging sweep whose oracle
reports `100 + r` nanoseconds at retry `r`. -/
def demoParams : RunParams := ⟨0, DATA_MAX, false, fun _ r _ _ _ => 100 + r⟩

/-- Witness for C7 on `demoParams` at size 1000 (three retries): the emitted
value for cell (backend 0, order 0, insert) is bounded by the retry-2 log
entry, equals some retry's entry, and the row is appended. -/
theorem min_over_retries_witness :
    ((sizeStep demoParams (initState demoParams) 1000).files 0 0 =
      (initState demoParams).files 0 0 ++
        [FileRow.row 1000 (rowVals demoParams (initState demoParams).last 1000 0 0)]) ∧
    (∃ r, r < retriesFor demoParams 1000 ∧
      emittedVal demoParams (initState demoParams).last 1000 0 0 0 =
        logEntry demoParams (initState demoParams).last 1000 r 0 0 0) ∧
    emittedVal demoParams (initState demoParams).last 1000 0 0 0 ≤
      logEntry demoParams (initState demoParams).last 1000 2 0 0 0 := by
  have h := min_over_retries demoParams (initState demoParams) 1000 0 0 0 rfl
  exact ⟨h.1, h.2.1, h.2.2 2 (by decide)⟩

/-- C8: in an unconstrained sweep (no backend selected, no pinned size),
once the degenerate-case marker of a (backend, order) pair exceeds
`TIME_MAX_NS = 1500`, the pair is never measured again at any later size:
its marker stays put (and markers never decrease in general), and the
measurement log gains no further entry for the pair. -/
theorem degenerate_pair_skipped_forever (p : RunParams) (s1 s2 : List ℕ)
    (d o : ℕ) (_hsize : p.size = 0) (hdata : p.data = DATA_MAX)
    (h1500 : TIME_MAX_NS < (runSweep p s1).last d o) :
    ((runSweep p (s1 ++ s2)).last d o = (runSweep p s1).last d o) ∧
    (∀ t1 t2 : List ℕ,
      (runSweep p t1).last d o ≤ (runSweep p (t1 ++ t2)).last d o) ∧
    ∃ suffix, (runSweep p (s1 ++ s2)).measLog =
        (runSweep p s1).measLog ++ suffix ∧
      ∀ x ∈ suffix, ¬(x.2.1 = d ∧ x.2.2 = o) := by
  obtain ⟨h1, suffix, h2, h3⟩ := skip_invariant p hdata d o s2 (runSweep p s1) h1500
  refine ⟨by rw [runSweep_append]; exact h1, ?_, ?_⟩
  · intro t1 t2
    rw [runSweep_append]
    exact foldl_last_mono p d o t2 (runSweep p t1)
  · exact ⟨suffix, by rw [runSweep_append]; exact h2, h3⟩

/-- Demonstration parameters for the degenerate skip: an unconstrained sweep
whose oracle always reports 2000 nanoseconds, beyond the 1500 limit. -/
def slowParams : RunParams := ⟨0, DATA_MAX, false, fun _ _ _ _ _ => 2000⟩

/-- Witness for C8: after one size of `slowParams`, the marker of pair
(backend 0, order 0) is 2000 > 1500, and a continued sweep at size 1259
never measures the pair again. -/
theorem degenerate_pair_skipped_forever_witness :
    ((runSweep slowParams ([1000] ++ [1259])).last 0 0 =
      (runSweep slowParams [1000]).last 0 0) ∧
    (∀ t1 t2 : List ℕ, (runSweep slowParams t1).last 0 0 ≤
      (runSweep slowParams (t1 ++ t2)).last 0 0) ∧
    ∃ suffix, (runSweep slowParams ([1000] ++ [1259])).measLog =
        (runSweep slowParams [1000]).measLog ++ suffix ∧
      ∀ x ∈ suffix, ¬(x.2.1 = 0 ∧ x.2.2 = 0) :=
  degenerate_pair_skipped_forever slowParams [1000] [1259] 0 0 rfl rfl
    (by decide)

/-- C9 (amended, for logging runs): in a run with logging enabled (an
unconstrained sweep, or any run with the `-l` flag), every (order,
operation) result file holds the header line followed by one data line per
completed dataset size, in order, each carrying that size and one value per
backend; lines are appended incrementally as sizes complete. -/
theorem result_files_structure (p : RunParams) (hlog : theLog p = true)
    (sizes : List ℕ) (o op : ℕ) :
    (∃ rows, (runSweep p sizes).files o op =
        FileRow.header ("0" :: DATA_NAME) :: rows ∧
      rows.map rowSize = sizes.map some ∧
      ∀ r ∈ rows, rowWidth r = some DATA_MAX) ∧
    (∀ s1 s2, sizes = s1 ++ s2 → ∃ suffix,
      (runSweep p sizes).files o op = (runSweep p s1).files o op ++ suffix) := by
  constructor
  · obtain ⟨rows, h1, h2, h3⟩ := files_invariant p hlog o op sizes (initState p)
    refine ⟨rows, ?_, h2, h3⟩
    have hinit : (initState p).files o op = [FileRow.header ("0" :: DATA_NAME)] := by
      unfold initState
      dsimp only
      rw [if_pos hlog]
    unfold runSweep
    rw [h1, hinit, List.singleton_append]
  · rintro s1 s2 rfl
    obtain ⟨rows, h1, _, _⟩ := files_invariant p hlog o op s2 (runSweep p s1)
    exact ⟨rows, by rw [runSweep_append]; exact h1⟩

/-- Parameters of a pinned-size run without the `-l` flag: `the_log` is
false, so nothing is written. -/
def noLogParams : RunParams := ⟨500, DATA_MAX, false, fun _ _ _ _ _ => 0⟩

/-- C9 (counterexample): not every run persists result files.  A pinned-size
run (`-N 500`) without `-l` finishes with an empty `dat_forward_insert.lst`
content: no header line, no data line. -/
theorem result_files_not_every_run :
    ¬ ∃ rows, (runSweep noLogParams [500]).files 0 0 =
        FileRow.header ("0" :: DATA_NAME) :: rows := by
  rintro ⟨rows, h⟩
  have he : (runSweep noLogParams [500]).files 0 0 = [] := rfl
  rw [he] at h
  exact List.noConfusion h

/-- Witness for C9 on `demoParams` (an unconstrained logging sweep) over the
two sizes 1000 and 1259: the forward insert file is the header line plus two
data lines for the two sizes, and the second size only appends. -/
theorem result_files_structure_witness :
    (∃ rows, (runSweep demoParams [1000, 1259]).files 0 0 =
        FileRow.header ("0" :: DATA_NAME) :: rows ∧
      rows.map rowSize = [1000, 1259].map some ∧
      ∀ r ∈ rows, rowWidth r = some DATA_MAX) ∧
    (∀ s1 s2, [1000, 1259] = s1 ++ s2 → ∃ suffix,
      (runSweep demoParams [1000, 1259]).files 0 0 =
        (runSweep demoParams s1).files 0 0 ++ suffix) :=
  result_files_structure demoParams rfl [1000, 1259] 0 0

/-- C10: a cell whose (backend, order) pair is not measured at a size (for
example a skipped degenerate pair, or an unselected backend) keeps the zero
written by the `memset` log fill in every retry entry, its minimum over
retries is therefore zero, the zero is what enters the result row for that
backend, and the zero-ignoring `LAST` update leaves the marker unchanged. -/
theorem unmeasured_cell_zero (p : RunParams) (st : SweepState) (m d o : ℕ)
    (hskip : measuredPair p st.last d o = false) :
    (∀ r op, logEntry p st.last m r d o op = 0) ∧
    (∀ op, emittedVal p st.last m d o op = 0) ∧
    ((sizeStep p st m).last d o = st.last d o) ∧
    (∀ op, d < DATA_MAX → (rowVals p st.last m o op)[d]? = some 0) := by
  have hlogz : ∀ r op, logEntry p st.last m r d o op = 0 := by
    intro r op
    simp [logEntry, hskip]
  have hz : ∀ op, emittedVal p st.last m d o op = 0 := by
    intro op
    exact minLoop_zero (fun r => hlogz r op) _
  refine ⟨hlogz, hz, ?_, ?_⟩
  · unfold sizeStep
    dsimp only
    split
    · exact newLastFold_zeros hz _ _
    · rfl
  · intro op hd
    unfold rowVals
    rw [List.getElem?_map]
    have hr : (List.range DATA_MAX)[d]? = some d := by
      simp [List.getElem?_range, hd]
    rw [hr]
    simp [hz op]

/-- Parameters of a single-backend run (`-d rbtree`): backends other than
index 5 are never measured. -/
def treeOnlyParams : RunParams := ⟨0, DATA_TREE, true, fun _ _ _ _ _ => 7⟩

/-- Witness for C10: in a `-d rbtree` run, backend 0 is never measured; its
log entries and emitted value at size 1000 are zero, the marker stays zero,
and the row cell of backend 0 reads zero. -/
theorem unmeasured_cell_zero_witness :
    logEntry treeOnlyParams (initState treeOnlyParams).last 1000 0 0 0 0 = 0 ∧
    emittedVal treeOnlyParams (initState treeOnlyParams).last 1000 0 0 0 = 0 ∧
    (sizeStep treeOnlyParams (initState treeOnlyParams) 1000).last 0 0 =
      (initState treeOnlyParams).last 0 0 ∧
    (rowVals treeOnlyParams (initState treeOnlyParams).last 1000 0 0)[0]? =
      some 0 := by
  have h := unmeasured_cell_zero treeOnlyParams (initState treeOnlyParams)
    1000 0 0 (by decide)
  exact ⟨h.1 0 0, h.2.1 0, h.2.2.1, h.2.2.2 0 (by decide)⟩

/-!
Pseudo random number generator, from `rnd(max)` in benchmark.cc.

The C function advances the 64 bit seed by the MMIX linear congruential
step, divides the output space into `max` buckets of width
`divider = 0xFFFFFFFFFFFFFFFF / max`, and loops until the bucket index
(truncated to `unsigned`) is below `max`.  The unbounded C loop is embedded
with explicit fuel; the theorems below show that `RND_FUEL = 2^32` attempts
always suffice, so the fuel never runs out for the arguments the program
uses.
-/

/-- Multiplier of the MMIX linear congruential generator. -/
def LCG_A : ℕ := 6364136223846793005

/-- Increment of the MMIX linear congruential generator. -/
def LCG_C : ℕ := 1442695040888963407

/-- One seed update: `SEED = SEED * 6364136223846793005 + 1442695040888963407`
in 64 bit arithmetic. -/
def lcgStep (seed : ℕ) : ℕ := (seed * LCG_A + LCG_C) % U64

/-- Bucket width: `divider = 0xFFFFFFFFFFFFFFFF / max`. -/
def divider (max : ℕ) : ℕ := 18446744073709551615 / max

/-- Fuel bound for the rejection loop; the proofs show it is never
exhausted when `1 ≤ max < 2^32`. -/
def RND_FUEL : ℕ := 4294967296

/-- Fueled rejection loop of `rnd`: advance the seed, compute the bucket
index `r = (unsigned)(SEED / divider)`, return it when `r < max`, otherwise
loop.  Returns the pair (result, new seed state). -/
def rndAux : ℕ → ℕ → ℕ → Option (ℕ × ℕ)
  | 0, _, _ => none
  | fuel + 1, max, seed =>
    let s := lcgStep seed
    let r := s / divider max % U32
    if r < max then some (r, s) else rndAux fuel max s

/-- The function `rnd(max)` together with its seed state update.  The
default of `getD` is unreachable: `rndAux_isSome` below shows the fueled
loop always returns for the arguments the program uses. -/
def rnd (max seed : ℕ) : ℕ × ℕ :=
  (rndAux RND_FUEL max seed).getD (0, lcgStep seed)

/-- Partial geometric sum of powers of the multiplier:
`lcgGeom n = 1 + A + A^2 + ... + A^(n-1)`. -/
def lcgGeom : ℕ → ℕ
  | 0 => 0
  | n + 1 => 1 + LCG_A * lcgGeom n

/-- Appending the highest power instead of the lowest. -/
lemma lcgGeom_succ_right (n : ℕ) : lcgGeom (n + 1) = lcgGeom n + LCG_A ^ n := by
  induction n with
  | zero => simp [lcgGeom]
  | succ n ih =>
    show 1 + LCG_A * lcgGeom (n + 1) = lcgGeom (n + 1) + LCG_A ^ (n + 1)
    conv_lhs => rw [ih]
    show 1 + LCG_A * (lcgGeom n + LCG_A ^ n) = (1 + LCG_A * lcgGeom n) + LCG_A ^ (n + 1)
    ring

/-- Splitting the geometric sum. -/
lemma lcgGeom_add (m : ℕ) : ∀ n, lcgGeom (m + n) = lcgGeom m + LCG_A ^ m * lcgGeom n := by
  intro n
  induction n with
  | zero => simp [lcgGeom]
  | succ n ih =>
    have h1 : m + (n + 1) = (m + n) + 1 := by omega
    rw [h1, lcgGeom_succ_right, ih, lcgGeom_succ_right]
    rw [pow_add]
    ring

/-- Doubling the geometric sum. -/
lemma lcgGeom_two_mul (n : ℕ) : lcgGeom (2 * n) = lcgGeom n * (1 + LCG_A ^ n) := by
  have h : 2 * n = n + n := by omega
  rw [h, lcgGeom_add]
  ring

/-- The geometric sum has the parity of its length (the multiplier is
odd). -/
lemma lcgGeom_parity (n : ℕ) : lcgGeom n % 2 = n % 2 := by
  induction n with
  | zero => rfl
  | succ n ih =>
    show (1 + LCG_A * lcgGeom n) % 2 = (n + 1) % 2
    unfold LCG_A
    omega

/-- Powers of the multiplier are 1 modulo 4. -/
lemma LCG_A_pow_mod4 (n : ℕ) : LCG_A ^ n % 4 = 1 := by
  induction n with
  | zero => rfl
  | succ n ih =>
    rw [pow_succ, Nat.mul_mod, ih]
    norm_num [LCG_A]

/-- Core two-adic bound: if `2^e` divides the geometric sum of length `n`,
then `2^e ≤ n`.  This is the reason the generator has no short cycles. -/
lemma lcgGeom_two_pow_dvd : ∀ n, 1 ≤ n → ∀ e : ℕ, 2 ^ e ∣ lcgGeom n → 2 ^ e ≤ n := by
  intro n
  induction n using Nat.strong_induction_on with
  | _ n ih =>
    intro hn e hdvd
    rcases Nat.even_or_odd n with he | ho
    · obtain ⟨m, rfl⟩ := he
      have hm1 : 1 ≤ m := by omega
      have hmlt : m < m + m := by omega
      have h2m : m + m = 2 * m := by omega
      rw [h2m, lcgGeom_two_mul] at hdvd
      cases e with
      | zero => simpa using hn
      | succ e =>
        have ht4 : (1 + LCG_A ^ m) % 4 = 2 := by
          have := LCG_A_pow_mod4 m
          omega
        set t := 1 + LCG_A ^ m with htdef
        have ht2 : t = 2 * (t / 2) := by omega
        have htodd : (t / 2) % 2 = 1 := by omega
        rw [ht2] at hdvd
        have hdvd2 : 2 ^ e ∣ lcgGeom m * (t / 2) := by
          have h : 2 * 2 ^ e ∣ 2 * (lcgGeom m * (t / 2)) := by
            have : lcgGeom m * (2 * (t / 2)) = 2 * (lcgGeom m * (t / 2)) := by ring
            rw [this] at hdvd
            rw [pow_succ] at hdvd
            calc 2 * 2 ^ e = 2 ^ e * 2 := by ring
              _ ∣ _ := hdvd
          exact (Nat.mul_dvd_mul_iff_left (by norm_num : 0 < 2)).mp h
        have hcop : Nat.Coprime (2 ^ e) (t / 2) := by
          refine Nat.Coprime.pow_left _ ?_
          refine (Nat.Prime.coprime_iff_not_dvd Nat.prime_two).mpr ?_
          rintro ⟨c, hc⟩
          omega
        have hdvdm : 2 ^ e ∣ lcgGeom m := hcop.dvd_of_dvd_mul_right hdvd2
        have hbound := ih m (by omega) hm1 e hdvdm
        rw [pow_succ]
        omega
    · cases e with
      | zero => simpa using hn
      | succ e =>
        exfalso
        have h2 : 2 ∣ lcgGeom n := dvd_trans (by exact dvd_pow_self 2 (by omega)) hdvd
        have := lcgGeom_parity n
        have hodd := Nat.odd_iff.mp ho
        obtain ⟨c, hc⟩ := h2
        omega

/-- The multiplier minus one (even, and exactly divisible by 4). -/
def LCG_A1 : ℕ := 6364136223846793004

/-- Decomposition of the multiplier. -/
lemma LCG_A_eq : LCG_A = LCG_A1 + 1 := by norm_num [LCG_A, LCG_A1]

/-- Geometric sum identity over the naturals. -/
lemma geom_identity : ∀ n, LCG_A1 * lcgGeom n + 1 = LCG_A ^ n := by
  intro n
  induction n with
  | zero => simp [lcgGeom]
  | succ n ih =>
    show LCG_A1 * (1 + LCG_A * lcgGeom n) + 1 = LCG_A ^ (n + 1)
    rw [pow_succ, ← ih, LCG_A_eq]
    ring

/-- The seed space size as a power of two. -/
lemma U64_eq : U64 = 2 ^ 64 := by norm_num [U64]

/-- Reduction modulo the seed space size vanishes in `ZMod U64`. -/
lemma cast_mod_U64 (x : ℕ) : ((x % U64 : ℕ) : ZMod U64) = (x : ZMod U64) := by
  have h0 : ((U64 : ℕ) : ZMod U64) = 0 := ZMod.natCast_self U64
  conv_rhs => rw [← Nat.mod_add_div x U64]
  push_cast
  rw [h0]
  ring

/-- One generator step, seen in `ZMod U64`. -/
lemma lcgStep_cast (s : ℕ) :
    ((lcgStep s : ℕ) : ZMod U64) = (s : ZMod U64) * LCG_A + LCG_C := by
  unfold lcgStep
  rw [cast_mod_U64]
  push_cast
  ring

/-- Closed form of the iterated generator step in `ZMod U64`. -/
lemma lcgStep_iterate_cast (s : ℕ) :
    ∀ n, ((lcgStep^[n] s : ℕ) : ZMod U64) =
      (LCG_A : ZMod U64) ^ n * s + LCG_C * lcgGeom n := by
  intro n
  induction n with
  | zero => simp [lcgGeom]
  | succ n ih =>
    rw [Function.iterate_succ_apply', lcgStep_cast, ih]
    have hg : ((lcgGeom (n + 1) : ℕ) : ZMod U64) =
        1 + (LCG_A : ZMod U64) * lcgGeom n := by
      show ((1 + LCG_A * lcgGeom n : ℕ) : ZMod U64) = _
      push_cast
      ring
    rw [hg]
    ring

/-- No cycle of the generator is shorter than the full period 2^64: this is
why the rejection loop of `rnd` cannot run forever. -/
lemma lcgStep_cycle_long {s ℓ : ℕ} (hℓ : 1 ≤ ℓ) (hfix : lcgStep^[ℓ] s = s) :
    2 ^ 64 ≤ ℓ := by
  have hcast := lcgStep_iterate_cast s ℓ
  rw [hfix] at hcast
  have hA : ((LCG_A : ZMod U64)) ^ ℓ = (LCG_A1 : ZMod U64) * lcgGeom ℓ + 1 := by
    calc ((LCG_A : ZMod U64)) ^ ℓ = ((LCG_A ^ ℓ : ℕ) : ZMod U64) := by push_cast; ring
      _ = ((LCG_A1 * lcgGeom ℓ + 1 : ℕ) : ZMod U64) := by rw [geom_identity]
      _ = _ := by push_cast; ring
  have hzero : (lcgGeom ℓ : ZMod U64) * ((LCG_A1 : ZMod U64) * s + LCG_C) = 0 := by
    linear_combination (-1 : ZMod U64) * hcast - (s : ZMod U64) * hA
  have h2 : Nat.Coprime 2 (LCG_A1 * s + LCG_C) :=
    (Nat.Prime.coprime_iff_not_dvd Nat.prime_two).mpr (by
      rintro ⟨c, hc⟩
      unfold LCG_A1 LCG_C at hc
      omega)
  have hu : IsUnit ((LCG_A1 * s + LCG_C : ℕ) : ZMod U64) := by
    rw [ZMod.isUnit_iff_coprime, U64_eq]
    exact Nat.Coprime.pow_right _ h2.symm
  have hcastu : ((LCG_A1 * s + LCG_C : ℕ) : ZMod U64) =
      (LCG_A1 : ZMod U64) * s + LCG_C := by push_cast; ring
  rw [hcastu] at hu
  have hG0 : ((lcgGeom ℓ : ℕ) : ZMod U64) = 0 :=
    (IsUnit.mul_left_eq_zero hu).mp hzero
  have hnz : NeZero U64 := ⟨by norm_num [U64]⟩
  have hdvd : U64 ∣ lcgGeom ℓ := (ZMod.natCast_zmod_eq_zero_iff_dvd _ _).mp hG0
  rw [U64_eq] at hdvd
  exact lcgGeom_two_pow_dvd ℓ hℓ 64 hdvd

/-- Every generator output is a valid 64 bit seed. -/
lemma lcgStep_lt (s : ℕ) : lcgStep s < U64 :=
  Nat.mod_lt _ (by norm_num [U64])

/-- Every iterated generator output is a valid 64 bit seed. -/
lemma lcgStep_iterate_lt (s : ℕ) {k : ℕ} (hk : 1 ≤ k) : lcgStep^[k] s < U64 := by
  obtain ⟨k', rfl⟩ : ∃ k', k = k' + 1 := ⟨k - 1, by omega⟩
  rw [Function.iterate_succ_apply']
  exact lcgStep_lt _

/-- The bucket width is above 2^32 for the argument range of `rnd`. -/
lemma divider_ge {max : ℕ} (h1 : 1 ≤ max) (h2 : max < U32) :
    4294967297 ≤ divider max := by
  unfold divider
  have h3 : max ≤ 4294967295 := by unfold U32 at h2; omega
  have h4 : 18446744073709551615 / 4294967295 ≤ 18446744073709551615 / max :=
    Nat.div_le_div_left h3 h1
  have h5 : (18446744073709551615 : ℕ) / 4294967295 = 4294967297 := by norm_num
  omega

/-- Bucket indices of 64 bit seeds fit in 32 bits, so the `unsigned` cast in
`r = (unsigned)(SEED / divider)` truncates nothing. -/
lemma bucket_lt_U32 {max s : ℕ} (h1 : 1 ≤ max) (h2 : max < U32) (hs : s < U64) :
    s / divider max < U32 := by
  have hd := divider_ge h1 h2
  have h3 : s / divider max ≤ s / 4294967297 := Nat.div_le_div_left hd (by omega)
  have h4 : s / 4294967297 ≤ 18446744073709551615 / 4294967297 :=
    Nat.div_le_div_right (by unfold U64 at hs; omega)
  have h5 : (18446744073709551615 : ℕ) / 4294967297 = 4294967295 := by norm_num
  unfold U32
  omega

/-- A rejected seed lies in the top residual interval of the bucket
partition. -/
lemma rejected_in_bad {max s : ℕ} (h1 : 1 ≤ max) (h2 : max < U32) (hs : s < U64)
    (hrej : ¬ (s / divider max % U32 < max)) :
    max * divider max ≤ s := by
  rw [Nat.mod_eq_of_lt (bucket_lt_U32 h1 h2 hs)] at hrej
  have hd : 0 < divider max := by have := divider_ge h1 h2; omega
  exact (Nat.le_div_iff_mul_le hd).mp (by omega)

/-- The residual interval rejected by the bucket partition holds at most
`max` seeds. -/
lemma bad_card {max : ℕ} (h1 : 1 ≤ max) : U64 - max * divider max ≤ max := by
  unfold divider U64
  have hdm := Nat.div_add_mod 18446744073709551615 max
  have hlt : 18446744073709551615 % max < max := Nat.mod_lt _ (by omega)
  omega

/-- When the fueled loop returns nothing, every attempted bucket index was
rejected. -/
lemma rndAux_none_rejected (max : ℕ) :
    ∀ (F seed : ℕ), rndAux F max seed = none →
      ∀ k, 1 ≤ k → k ≤ F → ¬ (lcgStep^[k] seed / divider max % U32 < max) := by
  intro F
  induction F with
  | zero => intro seed _ k hk1 hk2; omega
  | succ F ih =>
    intro seed hnone k hk1 hk2
    simp only [rndAux] at hnone
    split_ifs at hnone with hc
    rcases Nat.lt_or_ge k 2 with hk | hk
    · have : k = 1 := by omega
      subst this
      rw [Function.iterate_one]
      exact hc
    · obtain ⟨k', rfl⟩ : ∃ k', k = k' + 1 := ⟨k - 1, by omega⟩
      rw [Function.iterate_succ_apply]
      exact ih (lcgStep seed) hnone k' (by omega) (by omega)

/-- Termination of the rejection loop: within `RND_FUEL` attempts some
bucket index falls below `max`.  If not, the first `max + 1` seeds would all
sit in the residual interval of at most `max` values, two of them would
coincide, and the generator would have a cycle of length at most `max`,
contradicting the full period lower bound. -/
lemma rndAux_isSome {max : ℕ} (h1 : 1 ≤ max) (h2 : max < U32) (seed : ℕ) :
    (rndAux RND_FUEL max seed).isSome = true := by
  by_contra h
  have hnone : rndAux RND_FUEL max seed = none := by
    cases hopt : rndAux RND_FUEL max seed with
    | none => rfl
    | some v => rw [hopt] at h; simp at h
  have hrej := rndAux_none_rejected max RND_FUEL seed hnone
  have hmaps : ∀ k ∈ Finset.range (max + 1),
      lcgStep^[k + 1] seed ∈ Finset.Ico (max * divider max) U64 := by
    intro k hk
    rw [Finset.mem_range] at hk
    have hk2 : k + 1 ≤ RND_FUEL := by unfold RND_FUEL; unfold U32 at h2; omega
    have hs := @lcgStep_iterate_lt seed (k + 1) (by omega)
    exact Finset.mem_Ico.mpr
      ⟨rejected_in_bad h1 h2 hs (hrej (k + 1) (by omega) hk2), hs⟩
  have hcard : (Finset.Ico (max * divider max) U64).card <
      (Finset.range (max + 1)).card := by
    rw [Nat.card_Ico, Finset.card_range]
    have := @bad_card max h1
    omega
  obtain ⟨i, hi, j, hj, hne, heq⟩ :=
    Finset.exists_ne_map_eq_of_card_lt_of_maps_to hcard hmaps
  rw [Finset.mem_range] at hi hj
  have hcyc : ∀ a b : ℕ, a < b → b ≤ max →
      lcgStep^[a + 1] seed = lcgStep^[b + 1] seed → False := by
    intro a b hab hbmax hfix
    have hstep : lcgStep^[b - a] (lcgStep^[a + 1] seed) = lcgStep^[a + 1] seed := by
      rw [← Function.iterate_add_apply]
      have hba : b - a + (a + 1) = b + 1 := by omega
      rw [hba, ← hfix]
    have hlong := lcgStep_cycle_long (by omega : 1 ≤ b - a) hstep
    unfold U32 at h2
    omega
  rcases Nat.lt_or_ge i j with hij | hij
  · exact hcyc i j hij (by omega) heq
  · exact hcyc j i (by omega) (by omega) heq.symm

/-- Partial correctness of the fueled loop: a returned pair consists of an
in-range bucket index of the final seed, and the final seed is an iterate of
the input seed (so the result is a function of the seed state alone). -/
lemma rndAux_sound (max : ℕ) :
    ∀ (F seed r s : ℕ), rndAux F max seed = some (r, s) →
      r < max ∧ r = s / divider max % U32 ∧
      ∃ k, 1 ≤ k ∧ k ≤ F ∧ s = lcgStep^[k] seed := by
  intro F
  induction F with
  | zero => intro seed r s h; simp [rndAux] at h
  | succ F ih =>
    intro seed r s h
    simp only [rndAux] at h
    split_ifs at h with hc
    · have hinj := Option.some_injective _ h
      obtain ⟨h1, h2⟩ := Prod.ext_iff.mp hinj
      dsimp only at h1 h2
      subst h1
      subst h2
      exact ⟨hc, rfl, 1, le_rfl, by omega, by rw [Function.iterate_one]⟩
    · obtain ⟨hr, hs, k, hk1, hk2, hks⟩ := ih (lcgStep seed) r s h
      exact ⟨hr, hs, k + 1, by omega, by omega,
        by rw [hks, ← Function.iterate_succ_apply]⟩

/-- Packaged soundness of `rnd`: the fueled loop returns, and `rnd` gives
its value. -/
lemma rnd_eq_some {max : ℕ} (h1 : 1 ≤ max) (h2 : max < U32) (seed : ℕ) :
    rndAux RND_FUEL max seed = some (rnd max seed) := by
  obtain ⟨v, hv⟩ := Option.isSome_iff_exists.mp (rndAux_isSome h1 h2 seed)
  unfold rnd
  rw [hv]
  rfl

/-- The value drawn by `rnd` is always below `max`. -/
lemma rnd_lt {max : ℕ} (h1 : 1 ≤ max) (h2 : max < U32) (seed : ℕ) :
    (rnd max seed).1 < max := by
  have hs := rnd_eq_some h1 h2 seed
  exact (rndAux_sound max RND_FUEL seed _ _
    (by rw [hs])).1

/-- C6: for every `max ≥ 1` (and below 2^32, the range of the C `unsigned`
argument), `rnd` terminates, returns a value strictly below `max` that is
the bucket index of the final seed for buckets of width
`divider = (2^64 - 1) / max` (the rejection loop having discarded every
out-of-range bucket index), and both the value and the new seed state are
iterates of the generator on the input seed state alone. -/
theorem rnd_rejection_sampling (max seed : ℕ) (h1 : 1 ≤ max) (h2 : max < U32) :
    (rndAux RND_FUEL max seed).isSome = true ∧
    rndAux RND_FUEL max seed = some (rnd max seed) ∧
    (rnd max seed).1 < max ∧
    (rnd max seed).1 = (rnd max seed).2 / divider max % U32 ∧
    ∃ k, 1 ≤ k ∧ (rnd max seed).2 = lcgStep^[k] seed := by
  have hs := rnd_eq_some h1 h2 seed
  obtain ⟨hr, hb, k, hk1, _, hks⟩ :=
    rndAux_sound max RND_FUEL seed (rnd max seed).1 (rnd max seed).2 (by rw [hs])
  exact ⟨rndAux_isSome h1 h2 seed, hs, hr, hb, k, hk1, hks⟩

/-- Witness for C6 at `max = 10` from the initial seed 0: the loop returns,
the drawn value is below 10 and is the bucket index of the new seed, which
is an iterate of the generator. -/
theorem rnd_rejection_sampling_witness :
    (rndAux RND_FUEL 10 0).isSome = true ∧
    rndAux RND_FUEL 10 0 = some (rnd 10 0) ∧
    (rnd 10 0).1 < 10 ∧
    (rnd 10 0).1 = (rnd 10 0).2 / divider 10 % U32 ∧
    ∃ k, 1 ≤ k ∧ (rnd 10 0).2 = lcgStep^[k] 0 :=
  rnd_rejection_sampling 10 0 (by norm_num) (by norm_num [U32])

/-!
The Fisher-Yates shuffle of `order_init`.  The C loop
`for(i=max-1;i>=0;--i)` draws `j = rnd(i+1)` and swaps positions `i` and
`j` of `RAND0`, then does the same independently for `RAND1`, with the seed
state threaded through the draws.  Arrays are modelled as functions from
positions to keys.
-/

/-- In-place swap of two positions of an array modelled as a function
(`t = A[i]; A[i] = A[j]; A[j] = t`). -/
def swapFn (f : ℕ → ℕ) (i j : ℕ) : ℕ → ℕ :=
  fun k => if k = i then f j else if k = j then f i else f k

/-- Body of the shuffle loop at index `i`, acting on (seed, RAND0, RAND1):
the first draw `j = rnd(i+1)` advances the seed and swaps positions `i` and
`j` of `RAND0`, the second draw does the same for `RAND1`. -/
def shuffleStep (i : ℕ) (st : ℕ × (ℕ → ℕ) × (ℕ → ℕ)) :
    ℕ × (ℕ → ℕ) × (ℕ → ℕ) :=
  ((rnd (i + 1) (rnd (i + 1) st.1).2).2,
   swapFn st.2.1 i (rnd (i + 1) st.1).1,
   swapFn st.2.2 i (rnd (i + 1) (rnd (i + 1) st.1).2).1)

/-- The shuffle loop `for(i=max-1;i>=0;--i)`, folding the loop body over
the descending index sequence `n-1, n-2, ..., 0`. -/
def shuffleAux (n : ℕ) (st : ℕ × (ℕ → ℕ) × (ℕ → ℕ)) :
    ℕ × (ℕ → ℕ) × (ℕ → ℕ) :=
  (List.range n).reverse.foldl (fun st i => shuffleStep i st) st

/-- `order_init(max, sparse)`: the base key array and two copies shuffled by
the Fisher-Yates loop, returning (final seed, RAND0, RAND1). -/
def order_init (max : ℕ) (sparse : Bool) (seed : ℕ) :
    ℕ × (ℕ → ℕ) × (ℕ → ℕ) :=
  shuffleAux max (seed, FORWARD sparse max, FORWARD sparse max)

/-- Applying the loop body to an explicit state triple. -/
lemma shuffleStep_apply (i seed : ℕ) (f0 f1 : ℕ → ℕ) :
    shuffleStep i (seed, f0, f1) =
      ((rnd (i + 1) (rnd (i + 1) seed).2).2,
       swapFn f0 i (rnd (i + 1) seed).1,
       swapFn f1 i (rnd (i + 1) (rnd (i + 1) seed).2).1) := rfl

/-- Peeling the first (highest index) iteration off the shuffle loop. -/
lemma shuffleAux_succ (n : ℕ) (st : ℕ × (ℕ → ℕ) × (ℕ → ℕ)) :
    shuffleAux (n + 1) st = shuffleAux n (shuffleStep n st) := by
  unfold shuffleAux
  rw [List.range_succ, List.reverse_append, List.reverse_singleton,
    List.singleton_append, List.foldl_cons]

/-- A swap of positions is composition with a transposition. -/
lemma swapFn_comp (f : ℕ → ℕ) (i j : ℕ) :
    swapFn f i j = f ∘ (Equiv.swap i j) := by
  funext k
  simp only [swapFn, Function.comp_apply, Equiv.swap_apply_def]
  split_ifs <;> rfl

/-- The shuffle loop only composes the initial arrays with permutations
that move indices below the loop bound. -/
lemma shuffleAux_perm :
    ∀ (n : ℕ), n < U32 → ∀ (seed : ℕ) (f0 f1 : ℕ → ℕ),
      ∃ σ0 σ1 : Equiv.Perm ℕ,
        (∀ k, n ≤ k → σ0 k = k) ∧ (∀ k, n ≤ k → σ1 k = k) ∧
        (shuffleAux n (seed, f0, f1)).2.1 = f0 ∘ σ0 ∧
        (shuffleAux n (seed, f0, f1)).2.2 = f1 ∘ σ1 := by
  intro n
  induction n with
  | zero =>
    intro _ seed f0 f1
    exact ⟨Equiv.refl ℕ, Equiv.refl ℕ, fun _ _ => rfl, fun _ _ => rfl, rfl, rfl⟩
  | succ n ih =>
    intro hn seed f0 f1
    have hj0 : (rnd (n + 1) seed).1 < n + 1 :=
      rnd_lt (by omega) (by omega) seed
    have hj1 : (rnd (n + 1) (rnd (n + 1) seed).2).1 < n + 1 :=
      rnd_lt (by omega) (by omega) _
    obtain ⟨σ0, σ1, hfix0, hfix1, he0, he1⟩ :=
      ih (by omega) (rnd (n + 1) (rnd (n + 1) seed).2).2
        (swapFn f0 n (rnd (n + 1) seed).1)
        (swapFn f1 n (rnd (n + 1) (rnd (n + 1) seed).2).1)
    have hstep : shuffleAux (n + 1) (seed, f0, f1) =
        shuffleAux n ((rnd (n + 1) (rnd (n + 1) seed).2).2,
          swapFn f0 n (rnd (n + 1) seed).1,
          swapFn f1 n (rnd (n + 1) (rnd (n + 1) seed).2).1) := by
      rw [shuffleAux_succ, shuffleStep_apply]
    refine ⟨σ0.trans (Equiv.swap n (rnd (n + 1) seed).1),
      σ1.trans (Equiv.swap n (rnd (n + 1) (rnd (n + 1) seed).2).1),
      ?_, ?_, ?_, ?_⟩
    · intro k hk
      simp only [Equiv.trans_apply, hfix0 k (by omega)]
      exact Equiv.swap_apply_of_ne_of_ne (by omega) (by omega)
    · intro k hk
      simp only [Equiv.trans_apply, hfix1 k (by omega)]
      exact Equiv.swap_apply_of_ne_of_ne (by omega) (by omega)
    · rw [hstep, he0, swapFn_comp]
      funext k
      simp [Function.comp_apply, Equiv.trans_apply]
    · rw [hstep, he1, swapFn_comp]
      funext k
      simp [Function.comp_apply, Equiv.trans_apply]

/-- Materializing a permuted array over the index range yields a list
permutation. -/
lemma perm_list_of_comp {N : ℕ} {f g : ℕ → ℕ} (σ : Equiv.Perm ℕ)
    (hfix : ∀ k, N ≤ k → σ k = k) (hfg : g = f ∘ σ) :
    ((List.range N).map g).Perm ((List.range N).map f) := by
  have hmapsto : ∀ k, k < N → σ k < N := by
    intro k hk
    by_contra hge
    push_neg at hge
    have hx := hfix (σ k) hge
    have hkx : k = σ k := σ.injective (by rw [hx])
    omega
  have hnodup : ((List.range N).map (fun k => σ k)).Nodup :=
    (List.nodup_range N).map (fun a b hab => σ.injective hab)
  have htofin : ((List.range N).map (fun k => σ k)).toFinset =
      (List.range N).toFinset := by
    apply Finset.eq_of_subset_of_card_le
    · intro x hx
      simp only [List.mem_toFinset, List.mem_map, List.mem_range] at hx ⊢
      obtain ⟨k, hk, rfl⟩ := hx
      exact hmapsto k hk
    · rw [List.toFinset_card_of_nodup hnodup,
        List.toFinset_card_of_nodup (List.nodup_range N),
        List.length_map, List.length_range]
  have hperm : ((List.range N).map (fun k => σ k)).Perm (List.range N) :=
    List.perm_of_nodup_nodup_toFinset_eq hnodup (List.nodup_range N) htofin
  have hmap := hperm.map f
  rw [List.map_map] at hmap
  rw [hfg]
  exact hmap

/-- C5: `order_init` shuffles two copies of the base sequence in place with
the Fisher-Yates loop (index `i` swapped with the drawn index `j ≤ i`, `i`
descending), so `RAND0` and `RAND1` are arrays that agree with the base
array composed with permutations of the index range, and the key sequences
they spell over indices `0..N-1` are permutations of the unshuffled forward
base sequence. -/
theorem order_init_permutes (sparse : Bool) (N seed : ℕ) (hN : N ≤ MAX) :
    ∃ σ0 σ1 : Equiv.Perm ℕ,
      (∀ k, N ≤ k → σ0 k = k) ∧ (∀ k, N ≤ k → σ1 k = k) ∧
      (∀ k, (order_init N sparse seed).2.1 k = FORWARD sparse N (σ0 k)) ∧
      (∀ k, (order_init N sparse seed).2.2 k = FORWARD sparse N (σ1 k)) ∧
      ((List.range N).map (order_init N sparse seed).2.1).Perm
        (forwardList sparse N) ∧
      ((List.range N).map (order_init N sparse seed).2.2).Perm
        (forwardList sparse N) := by
  have hNU : N < U32 := by unfold MAX at hN; unfold U32; omega
  obtain ⟨σ0, σ1, hfix0, hfix1, he0, he1⟩ :=
    shuffleAux_perm N hNU seed (FORWARD sparse N) (FORWARD sparse N)
  refine ⟨σ0, σ1, hfix0, hfix1, ?_, ?_, ?_, ?_⟩
  · intro k
    show (shuffleAux N (seed, FORWARD sparse N, FORWARD sparse N)).2.1 k = _
    rw [he0]
    rfl
  · intro k
    show (shuffleAux N (seed, FORWARD sparse N, FORWARD sparse N)).2.2 k = _
    rw [he1]
    rfl
  · exact perm_list_of_comp σ0 hfix0 he0
  · exact perm_list_of_comp σ1 hfix1 he1

/-- Witness for C5 in dense mode at size two from seed zero. -/
theorem order_init_permutes_witness :
    ∃ σ0 σ1 : Equiv.Perm ℕ,
      (∀ k, 2 ≤ k → σ0 k = k) ∧ (∀ k, 2 ≤ k → σ1 k = k) ∧
      (∀ k, (order_init 2 false 0).2.1 k = FORWARD false 2 (σ0 k)) ∧
      (∀ k, (order_init 2 false 0).2.2 k = FORWARD false 2 (σ1 k)) ∧
      ((List.range 2).map (order_init 2 false 0).2.1).Perm
        (forwardList false 2) ∧
      ((List.range 2).map (order_init 2 false 0).2.2).Perm
        (forwardList false 2) :=
  order_init_permutes false 2 0 (by norm_num [MAX])

end TommyBench
